import Mathlib

/-!
Verification of the release-metadata scripts `scripts/prepare_release.py` and
`scripts/sync_version_code.py` of the cfait repository.

The Python sources are shallowly embedded: strings are `List Char`, the
regex substitutions used by the scripts (all of a fixed, determinate shape)
are modelled as explicit left-to-right scanners, and the changelog-to
AppStream transformation is modelled as a line-by-line state machine, exactly
following the control flow of `_parse_changelog_to_appstream`.

Scanners that skip more than one character per step are written with an
explicit fuel argument (fuel bounded by the input length suffices because
every step consumes at least one character); `...Run` wrappers instantiate
the fuel and unfolding equations are proved for them, so that all further
reasoning is fuel-free.
-/

namespace Cfait

/-- Whitespace characters recognised by Python's `\s` and `str.strip()`
(ASCII part, which is what the manifests and changelogs contain). -/
def wsCh (c : Char) : Bool :=
  c = ' ' || c = '\t' || c = '\n' || c = '\r' || c = '\x0b' || c = '\x0c'

/-- Decimal digit test, Python's `\d` (ASCII). -/
def digCh (c : Char) : Bool := c.isDigit

/-- Version triple to build code, the computation
`major * 10000 + minor * 100 + patch` of both scripts. -/
def buildCode (major minor patch : Nat) : Nat :=
  major * 10000 + minor * 100 + patch

/-- `dropPrefix? p s` returns `some rest` when `s = p ++ rest`. -/
def dropPrefix? : List Char → List Char → Option (List Char)
  | [], s => some s
  | _ :: _, [] => none
  | p :: ps, c :: cs => if p = c then dropPrefix? ps cs else none

/-! ### Python `str.replace`: replace every non-overlapping occurrence,
scanning left to right, without rescanning the replacement. -/

def replaceAllF (pat rep : List Char) : Nat → List Char → List Char
  | 0, s => s
  | _ + 1, [] => []
  | f + 1, c :: cs =>
    match dropPrefix? pat (c :: cs) with
    | some rest => rep ++ replaceAllF pat rep f rest
    | none => c :: replaceAllF pat rep f cs

/-- `str.replace(pat, rep)` for a non-empty `pat`. -/
def replaceAllRun (pat rep s : List Char) : List Char :=
  replaceAllF pat rep s.length s

/-! ### XML escaping of changelog items
(`item.replace("&", "&amp;").replace("<", "&lt;").replace(">", "&gt;")` in
`flush_section` of `prepare_release.py`). -/

/-- The three chained `str.replace` calls of `flush_section`. -/
def escapeXml (s : List Char) : List Char :=
  replaceAllRun ">".data "&gt;".data
    (replaceAllRun "<".data "&lt;".data
      (replaceAllRun "&".data "&amp;".data s))

/-- Character-wise expansion: map each character to a chunk, concatenate. -/
def cw (f : Char → List Char) (s : List Char) : List Char :=
  (s.map f).flatten

/-- What one raw character becomes under the chained escaping. -/
def escCharXml (c : Char) : List Char :=
  if c = '&' then "&amp;".data
  else if c = '<' then "&lt;".data
  else if c = '>' then "&gt;".data
  else [c]

/-! ### The changelog-to-AppStream transformation
(`_parse_changelog_to_appstream` in `prepare_release.py`). -/

/-- Boolean prefix test. -/
def startsL (p s : List Char) : Bool := (dropPrefix? p s).isSome

/-- Python `str.strip()`: drop whitespace from both ends. -/
def pyTrim (s : List Char) : List Char :=
  ((s.dropWhile wsCh).reverse.dropWhile wsCh).reverse

/-- Python `str.split("\n")`: `n` separators yield `n + 1` parts. -/
def splitNl : List Char → List (List Char)
  | [] => [[]]
  | c :: cs =>
    if c = '\n' then [] :: splitNl cs
    else
      match splitNl cs with
      | [] => [[c]]
      | l :: ls => (c :: l) :: ls

/-- One match attempt of `re.sub(r"\*\(([^)]+)\)\*\s*", r"(\1) ", item)` at the
head of the string: on success returns the replacement text (the scope in
plain parentheses plus one space) and the rest after the consumed span. -/
def scopeStep (s : List Char) : Option (List Char × List Char) :=
  match s with
  | '*' :: '(' :: t =>
    let content := t.takeWhile (fun c => c ≠ ')')
    if content.isEmpty then none
    else
      match t.dropWhile (fun c => c ≠ ')') with
      | ')' :: '*' :: u => some ('(' :: (content ++ [')', ' ']), u.dropWhile wsCh)
      | _ => none
  | _ => none

def scopeFixF : Nat → List Char → List Char
  | 0, s => s
  | _ + 1, [] => []
  | f + 1, c :: cs =>
    match scopeStep (c :: cs) with
    | some (rep, rest) => rep ++ scopeFixF f rest
    | none => c :: scopeFixF f cs

def scopeFix (s : List Char) : List Char := scopeFixF s.length s

/-- Case-insensitive literal match (pattern given in lower case):
returns the rest on success. -/
def dropPrefixCI : List Char → List Char → Option (List Char)
  | [], s => some s
  | _ :: _, [] => none
  | p :: ps, c :: cs => if c.toLower = p then dropPrefixCI ps cs else none

/-- One match attempt of
`re.sub(r"\[?\*\*breaking\*\*\]?\s*", "[breaking] ", item, flags=re.IGNORECASE)`
at the head: optional `[`, the literal `**breaking**` (case-insensitive),
optional `]`, then greedy whitespace. Returns the rest after the match. -/
def breakingStep (s : List Char) : Option (List Char) :=
  match s with
  | '[' :: t =>
    match dropPrefixCI "**breaking**".data t with
    | some r1 =>
      some ((match r1 with | ']' :: r2 => r2 | _ => r1).dropWhile wsCh)
    | none => none
  | t =>
    match dropPrefixCI "**breaking**".data t with
    | some r1 =>
      some ((match r1 with | ']' :: r2 => r2 | _ => r1).dropWhile wsCh)
    | none => none

def breakingFixF : Nat → List Char → List Char
  | 0, s => s
  | _ + 1, [] => []
  | f + 1, c :: cs =>
    match breakingStep (c :: cs) with
    | some rest => "[breaking] ".data ++ breakingFixF f rest
    | none => c :: breakingFixF f cs

def breakingFix (s : List Char) : List Char := breakingFixF s.length s

/-- The inline cleanups applied to a list item (`scope` rewrite, `breaking`
rewrite, then removal of the remaining `**`). -/
def cleanItem (s : List Char) : List Char :=
  replaceAllRun "**".data [] (breakingFix (scopeFix s))

/-- One match attempt of `re.sub(r"<!--\s*\d+\s*-->", "", section_name)` at
the head: returns the rest after the consumed comment. -/
def commentStep (s : List Char) : Option (List Char) :=
  match dropPrefix? "<!--".data s with
  | none => none
  | some t1 =>
    let t2 := t1.dropWhile wsCh
    if (t2.takeWhile digCh).isEmpty then none
    else dropPrefix? "-->".data ((t2.dropWhile digCh).dropWhile wsCh)

def commentFixF : Nat → List Char → List Char
  | 0, s => s
  | _ + 1, [] => []
  | f + 1, c :: cs =>
    match commentStep (c :: cs) with
    | some rest => commentFixF f rest
    | none => c :: commentFixF f cs

def commentFix (s : List Char) : List Char := commentFixF s.length s

/-- The fixed decorative-symbol character class removed from section names
(including the variation selector U+FE0F present in the class). -/
def emojiSet : List Char :=
  [Char.ofNat 0x1F680, Char.ofNat 0x1F41B, Char.ofNat 0x1F69C,
   Char.ofNat 0x1F4DA, Char.ofNat 0x26A1, Char.ofNat 0x1F3A8,
   Char.ofNat 0x1F9EA, Char.ofNat 0x2699, Char.ofNat 0xFE0F,
   Char.ofNat 0x25C0, Char.ofNat 0x1F4BC]

def emojiFilter (s : List Char) : List Char :=
  s.filter (fun c => !(emojiSet.contains c))

/-- Section-name cleanup in `flush_section`: strip ordering comments, strip
the decorative symbols, trim. -/
def cleanSectionName (s : List Char) : List Char :=
  pyTrim (emojiFilter (commentFix s))

/-- Parser state: pending section title (`None` initially), pending items,
and the sections already flushed (cleaned title with their raw items). -/
structure PSt where
  sec : Option (List Char)
  items : List (List Char)
  out : List (List Char × List (List Char))

/-- `flush_section`: emit the pending section when the pending title is
truthy, the item list is non-empty and the cleaned title is non-empty. -/
def flushSec (sec : Option (List Char)) (items : List (List Char))
    (out : List (List Char × List (List Char))) :
    List (List Char × List (List Char)) :=
  match sec with
  | none => out
  | some s =>
    if s.isEmpty || items.isEmpty then out
    else
      let name := cleanSectionName s
      if name.isEmpty then out else out ++ [(name, items)]

/-- The loop body of `_parse_changelog_to_appstream`: strip the line, skip
top-level headings and blanks, start a section on `###`, append a cleaned
item on `- `, ignore anything else. -/
def procLine (st : PSt) (rawLine : List Char) : PSt :=
  let l := pyTrim rawLine
  if (startsL "##".data l && !startsL "###".data l) || l.isEmpty then st
  else if startsL "###".data l then
    { sec := some (pyTrim (replaceAllRun "###".data [] l)),
      items := [],
      out := flushSec st.sec st.items st.out }
  else if startsL "- ".data l then
    { st with items := st.items ++ [cleanItem (pyTrim (l.drop 2))] }
  else st

/-- The parse: strip the document, split into lines, run the loop, flush the
final pending section. Result: ordered list of (cleaned title, items). -/
def parseSecs (md : List Char) : List (List Char × List (List Char)) :=
  let st := (splitNl (pyTrim md)).foldl procLine ⟨none, [], []⟩
  flushSec st.sec st.items st.out

/-- The `xml_parts` lines one emitted section contributes. -/
def renderSection (sec : List Char × List (List Char)) : List (List Char) :=
  ("        <p>".data ++ sec.1 ++ ":</p>".data) ::
    "        <ul>".data ::
    (sec.2.map (fun it => "          <li>".data ++ escapeXml it ++ "</li>".data)
      ++ ["        </ul>".data])

def xmlPartsOf (md : List Char) : List (List Char) :=
  ((parseSecs md).map renderSection).flatten

/-- `"\n".join(parts)`. -/
def joinNl : List (List Char) → List Char
  | [] => []
  | [l] => l
  | l :: ls => l ++ '\n' :: joinNl ls

/-- The fallback rendering used when parsing produced nothing usable. -/
def fallbackLine : List Char := "        <p>See CHANGELOG.md for details.</p>\n".data

/-- `_parse_changelog_to_appstream`: joined parts with trailing newline, or
the fallback line when there are no parts. -/
def appstream (md : List Char) : List Char :=
  let parts := xmlPartsOf md
  if parts.isEmpty then fallbackLine else joinNl parts ++ ['\n']

/-! ### The `version_code` substitution
(`re.sub(r"^version_code\s*=\s*\d+", f"version_code = {code}", content,
flags=re.MULTILINE)` of both scripts).  The pattern is anchored at line
starts; note that `\s` also matches a newline, so a match may span lines. -/

def vcLit : List Char := "version_code".data

/-- Matcher tail after `=`: `\s*\d+` (greedy, hence determinate here). -/
def vcAfterEq (s3 : List Char) : Option (List Char) :=
  match s3.dropWhile wsCh with
  | d :: s5 => if digCh d then some (s5.dropWhile digCh) else none
  | [] => none

/-- Matcher tail after the literal: `\s*=` then `\s*\d+`. -/
def vcAfterLit (s1 : List Char) : Option (List Char) :=
  match s1.dropWhile wsCh with
  | c :: s3 => if c = '=' then vcAfterEq s3 else none
  | [] => none

/-- Match of `version_code\s*=\s*\d+` at the head of the string; on success
returns the rest after the maximal matched span. -/
def matchVC (s : List Char) : Option (List Char) :=
  match dropPrefix? vcLit s with
  | some s1 => vcAfterLit s1
  | none => none

/-- The replacement text `f"version_code = {code}"`, with the rendered
decimal digits passed explicitly. -/
def vcRepl (ds : List Char) : List Char := "version_code = ".data ++ ds

def subVCF (ds : List Char) : Nat → Bool → List Char → List Char
  | 0, _, s => s
  | _ + 1, _, [] => []
  | f + 1, false, c :: cs => c :: subVCF ds f (c == '\n') cs
  | f + 1, true, c :: cs =>
    match matchVC (c :: cs) with
    | some r => vcRepl ds ++ subVCF ds f false r
    | none => c :: subVCF ds f (c == '\n') cs

/-- The whole `re.sub`: scan from the start of the string (which is a line
start); after a '\n' the next position is again a line start. -/
def subVCRun (ds : List Char) (b : Bool) (s : List Char) : List Char :=
  subVCF ds s.length b s

/-- No newline occurs in the list (the property of a single line). -/
def lnFree (l : List Char) : Prop := ∀ c ∈ l, c ≠ '\n'

/-- Relation between a string and its image under the scanner restarted at a
later line: equal, or they share a newline-free first segment up to a `'\n'`
after which the second is the scanned image of the first. -/
def Rel (ds : List Char) (a a' : List Char) : Prop :=
  a = a' ∨
    ∃ l r, lnFree l ∧ a = l ++ '\n' :: r ∧ a' = l ++ '\n' :: subVCRun ds true r

/-- Decimal digit character for `d ≤ 9`. -/
def digCharOf (d : Nat) : Char :=
  match d with
  | 0 => '0' | 1 => '1' | 2 => '2' | 3 => '3' | 4 => '4'
  | 5 => '5' | 6 => '6' | 7 => '7' | 8 => '8' | _ => '9'

/-- Decimal rendering of a natural number (Python's `f"{n}"`), fueled. -/
def natCharsF : Nat → Nat → List Char
  | 0, n => [digCharOf n]
  | f + 1, n =>
    if n < 10 then [digCharOf n]
    else natCharsF f (n / 10) ++ [digCharOf (n % 10)]

def natChars (n : Nat) : List Char := natCharsF n n

/-- The `version_code` substitution with the code rendered in decimal, as in
`re.sub(r"^version_code\s*=\s*\d+", f"version_code = {version_code}", ...)`. -/
def subVersionCode (code : Nat) (content : List Char) : List Char :=
  subVCRun (natChars code) true content

/-- Per-line action of the substitution: a line matching the anchored field
pattern at its start has the matched span replaced; other lines are kept. -/
def patchLine (ds : List Char) (l : List Char) : List Char :=
  match matchVC l with
  | some r => vcRepl ds ++ r
  | none => l

/-- The character class `[\d.]` of the tag pattern. -/
def tokCh (c : Char) : Bool := digCh c || c = '.'

/-- The character class `[a-f0-9]` of the commit pattern. -/
def hexCh (c : Char) : Bool := digCh c || ('a' ≤ c && c ≤ 'f')

/-- One match attempt of `(\s+tag:\s+)v[\d.]+` at the head: non-empty
whitespace, the literal `tag:`, non-empty whitespace (all three preserved as
the group), then `v` and a non-empty run of digits and dots.  On success
returns the replacement (group then `v` plus the new version) and the rest. -/
def tagStep (ver : List Char) (s : List Char) : Option (List Char × List Char) :=
  let ws1 := s.takeWhile wsCh
  if ws1.isEmpty then none
  else
    match dropPrefix? "tag:".data (s.dropWhile wsCh) with
    | none => none
    | some t1 =>
      let ws2 := t1.takeWhile wsCh
      if ws2.isEmpty then none
      else
        match t1.dropWhile wsCh with
        | c :: t2 =>
          if c = 'v' then
            let vd := t2.takeWhile tokCh
            if vd.isEmpty then none
            else some (ws1 ++ "tag:".data ++ ws2 ++ 'v' :: ver,
              t2.dropWhile tokCh)
          else none
        | [] => none

def tagSubF (ver : List Char) : Nat → List Char → List Char
  | 0, s => s
  | _ + 1, [] => []
  | f + 1, c :: cs =>
    match tagStep ver (c :: cs) with
    | some (rep, rest) => rep ++ tagSubF ver f rest
    | none => c :: tagSubF ver f cs

/-- The `tag:` field substitution of step 7 of `prepare_release.py`. -/
def tagSubRun (ver s : List Char) : List Char := tagSubF ver s.length s

/-- One match attempt of `(\s+commit:\s+)[a-f0-9]{40}` at the head:
non-empty whitespace, the literal `commit:`, non-empty whitespace (all
preserved as the group), then exactly 40 hexadecimal characters.  On success
returns the replacement (group then the new hash) and the rest. -/
def commitStep (hash : List Char) (s : List Char) :
    Option (List Char × List Char) :=
  let ws1 := s.takeWhile wsCh
  if ws1.isEmpty then none
  else
    match dropPrefix? "commit:".data (s.dropWhile wsCh) with
    | none => none
    | some t1 =>
      let ws2 := t1.takeWhile wsCh
      if ws2.isEmpty then none
      else
        let t2 := t1.dropWhile wsCh
        if (t2.take 40).length = 40 && (t2.take 40).all hexCh then
          some (ws1 ++ "commit:".data ++ ws2 ++ hash, t2.drop 40)
        else none

def commitSubF (hash : List Char) : Nat → List Char → List Char
  | 0, s => s
  | _ + 1, [] => []
  | f + 1, c :: cs =>
    match commitStep hash (c :: cs) with
    | some (rep, rest) => rep ++ commitSubF hash f rest
    | none => c :: commitSubF hash f cs

/-- The `commit:` field substitution of step 7 of `prepare_release.py`
(`re.sub(r"(\s+commit:\s+)[a-f0-9]{40}", rf"\g<1>{commit_hash}", ...)`). -/
def commitSubRun (hash s : List Char) : List Char := commitSubF hash s.length s

/-- A replaceable `v[\d.]+` version token of the tag pattern. -/
def tagTok (tk : List Char) : Prop :=
  ∃ vd, tk = 'v' :: vd ∧ vd ≠ [] ∧ ∀ c ∈ vd, tokCh c = true

/-- A replaceable `[a-f0-9]{40}` hash token of the commit pattern. -/
def commitTok (tk : List Char) : Prop :=
  tk.length = 40 ∧ ∀ c ∈ tk, hexCh c = true

/-- `SpanRw P rep s t`: `t` is `s` with some spans satisfying `P` replaced
in place by `rep`; every other character is copied verbatim. -/
inductive SpanRw (P : List Char → Prop) (rep : List Char) :
    List Char → List Char → Prop
  | nil : SpanRw P rep [] []
  | copy (c : Char) {s t : List Char} :
      SpanRw P rep s t → SpanRw P rep (c :: s) (c :: t)
  | subst (tk : List Char) {s t : List Char} :
      P tk → SpanRw P rep s t → SpanRw P rep (tk ++ s) (rep ++ t)

/-! ### Locating the version
(`re.search(r'^version\s*=\s*"(\d+)\.(\d+)\.(\d+)"', content, re.MULTILINE)`
of both scripts) and the early-abort behaviour when it is missing. -/

/-- `int()` of a digit string (leading zeros allowed). -/
def digitsToNat (ds : List Char) : Nat :=
  ds.foldl (fun a c => 10 * a + (c.toNat - 48)) 0

/-- Match of `version\s*=\s*"(\d+)\.(\d+)\.(\d+)"` at the head of the
string, returning the three captured numbers. -/
def matchVer (s : List Char) : Option (Nat × Nat × Nat) :=
  match dropPrefix? "version".data s with
  | none => none
  | some s1 =>
    match s1.dropWhile wsCh with
    | c :: s2 =>
      if c = '=' then
        match s2.dropWhile wsCh with
        | q :: s3 =>
          if q = '"' then
            let d1 := s3.takeWhile digCh
            if d1.isEmpty then none
            else
              match s3.dropWhile digCh with
              | p1 :: s4 =>
                if p1 = '.' then
                  let d2 := s4.takeWhile digCh
                  if d2.isEmpty then none
                  else
                    match s4.dropWhile digCh with
                    | p2 :: s5 =>
                      if p2 = '.' then
                        let d3 := s5.takeWhile digCh
                        if d3.isEmpty then none
                        else
                          match s5.dropWhile digCh with
                          | q2 :: _ =>
                            if q2 = '"' then
                              some (digitsToNat d1, digitsToNat d2, digitsToNat d3)
                            else none
                          | [] => none
                      else none
                    | [] => none
                else none
              | [] => none
          else none
        | [] => none
      else none
    | [] => none

/-- `re.search` with the multiline anchor: try the pattern at the start of
every line, left to right; first match wins. -/
def findVer : Bool → List Char → Option (Nat × Nat × Nat)
  | _, [] => none
  | false, c :: cs => findVer (c == '\n') cs
  | true, c :: cs =>
    match matchVer (c :: cs) with
    | some v => some v
    | none => findVer (c == '\n') cs

/-- Outcome of one script run: process exit code, diagnostic message, and
the content written back to the manifest (`none` when nothing is written). -/
structure RunOutcome where
  exitCode : Nat
  message : List Char
  written : Option (List Char)

/-- The error message printed by both scripts when the version is missing. -/
def missingVersionMsg : List Char :=
  "Error: Could not find version in Cargo.toml".data

/-- `sync_version_code.main`: read the manifest text, locate the version
(else print the diagnostic and `sys.exit(1)` before any write), compute the
code and write back the substituted text. -/
def syncMain (content : List Char) : RunOutcome :=
  match findVer true content with
  | none => ⟨1, missingVersionMsg, none⟩
  | some (major, minor, patch) =>
    ⟨0, [], some (subVersionCode (buildCode major minor patch) content)⟩

/-- The version-derivation stage of `prepare_release.main` (steps 1-2): the
same pattern search, aborting with the same diagnostic before any file is
touched, else yielding the version triple and its build code. -/
def prepareDerive (content : List Char) :
    Except (List Char) ((Nat × Nat × Nat) × Nat) :=
  match findVer true content with
  | none => Except.error missingVersionMsg
  | some (major, minor, patch) =>
    Except.ok ((major, minor, patch), buildCode major minor patch)

/-! ### Release insertion into the metainfo document
(`xml_content.replace("<releases>", f"<releases>\n{release_xml}")`, or
creation of the container before `</component>`, in step 6 of
`prepare_release.py`). -/

/-- Python's `pat in s` substring test. -/
def hasSub (pat : List Char) : List Char → Bool
  | [] => pat.isEmpty
  | c :: cs => (dropPrefix? pat (c :: cs)).isSome || hasSub pat cs

/-- The opening container tag searched for by the script. -/
def relTag : List Char := "<releases>".data

/-- Step 6 of `prepare_release.py`: insert the rendered release element
right after the opening `<releases>` tag when the container exists,
otherwise create the container just before the closing `</component>`. -/
def insertRelease (relXml doc : List Char) : List Char :=
  if hasSub relTag doc then
    replaceAllRun relTag (relTag ++ '\n' :: relXml) doc
  else
    replaceAllRun "</component>".data
      ("  <releases>\n".data ++ relXml ++ "\n  </releases>\n</component>".data) doc

theorem dropPrefix?_eq_some {p s r : List Char} (h : dropPrefix? p s = some r) :
    s = p ++ r := by
  induction p generalizing s with
  | nil => simpa [dropPrefix?] using h
  | cons a ps ih =>
    cases s with
    | nil => simp [dropPrefix?] at h
    | cons c cs =>
      by_cases hac : a = c
      · subst hac
        simp only [dropPrefix?, if_pos rfl] at h
        simpa using ih h
      · simp [dropPrefix?, hac] at h

theorem dropPrefix?_append (p r : List Char) : dropPrefix? p (p ++ r) = some r := by
  induction p with
  | nil => rfl
  | cons a ps ih => simp [dropPrefix?, ih]

theorem dropPrefix?_length {p s r : List Char} (h : dropPrefix? p s = some r) :
    r.length + p.length = s.length := by
  have := dropPrefix?_eq_some h
  subst this
  simp [Nat.add_comm]

theorem replaceAllF_fuel (pat rep : List Char) (hp : pat ≠ []) :
    ∀ (f g : Nat) (s : List Char), s.length ≤ f → s.length ≤ g →
      replaceAllF pat rep f s = replaceAllF pat rep g s := by
  intro f
  induction f with
  | zero =>
    intro g s hf _
    have : s = [] := List.length_eq_zero.mp (Nat.le_zero.mp hf)
    subst this
    cases g <;> rfl
  | succ f ih =>
    intro g s hf hg
    cases s with
    | nil => cases g <;> rfl
    | cons c cs =>
      cases g with
      | zero => simp at hg
      | succ g =>
        simp only [replaceAllF]
        cases hm : dropPrefix? pat (c :: cs) with
        | some rest =>
          have hlen := dropPrefix?_length hm
          simp only [List.length_cons] at hlen
          have hpl : 1 ≤ pat.length := by
            cases pat with
            | nil => exact absurd rfl hp
            | cons _ _ => simp
          have hr : rest.length ≤ f := by
            simp only [List.length_cons] at hf
            omega
          have hr' : rest.length ≤ g := by
            simp only [List.length_cons] at hg
            omega
          simp [ih g rest hr hr']
        | none =>
          have : cs.length ≤ f := by simp only [List.length_cons] at hf; omega
          have : cs.length ≤ g := by simp only [List.length_cons] at hg; omega
          simp [ih g cs ‹cs.length ≤ f› ‹cs.length ≤ g›]

@[simp] theorem replaceAllRun_nil (pat rep : List Char) :
    replaceAllRun pat rep [] = [] := by
  simp [replaceAllRun, replaceAllF]

theorem replaceAllRun_match {pat : List Char} (rep : List Char) {c : Char}
    {cs rest : List Char} (hp : pat ≠ [])
    (hm : dropPrefix? pat (c :: cs) = some rest) :
    replaceAllRun pat rep (c :: cs) = rep ++ replaceAllRun pat rep rest := by
  have hlen := dropPrefix?_length hm
  have hpl : 1 ≤ pat.length := by
    cases pat with
    | nil => exact absurd rfl hp
    | cons _ _ => simp
  unfold replaceAllRun
  simp only [List.length_cons, replaceAllF, hm]
  congr 1
  exact replaceAllF_fuel pat rep hp cs.length rest.length rest
    (by simp only [List.length_cons] at hlen ⊢; omega) (Nat.le_refl _)

theorem replaceAllRun_nomatch {pat : List Char} (rep : List Char) {c : Char}
    {cs : List Char} (hm : dropPrefix? pat (c :: cs) = none) :
    replaceAllRun pat rep (c :: cs) = c :: replaceAllRun pat rep cs := by
  unfold replaceAllRun
  simp only [List.length_cons, replaceAllF, hm]

theorem cw_append (f : Char → List Char) (a b : List Char) :
    cw f (a ++ b) = cw f a ++ cw f b := by
  simp [cw]

theorem cw_cw (f g : Char → List Char) (s : List Char) :
    cw f (cw g s) = cw (fun c => cw f (g c)) s := by
  induction s with
  | nil => rfl
  | cons c cs ih =>
    have : cw g (c :: cs) = g c ++ cw g cs := by simp [cw]
    rw [this, cw_append, ih]
    simp [cw]

theorem cw_congr {f g : Char → List Char} (h : ∀ c, f c = g c) (s : List Char) :
    cw f s = cw g s := by
  induction s with
  | nil => rfl
  | cons c cs ih =>
    have e1 : cw f (c :: cs) = f c ++ cw f cs := by simp [cw]
    have e2 : cw g (c :: cs) = g c ++ cw g cs := by simp [cw]
    rw [e1, e2, h c, ih]

/-- A single-character `str.replace` is a character-wise map. -/
theorem replaceAllRun_single (p : Char) (rep : List Char) (s : List Char) :
    replaceAllRun [p] rep s = cw (fun c => if c = p then rep else [c]) s := by
  induction s with
  | nil => simp [cw]
  | cons c cs ih =>
    by_cases hc : c = p
    · subst hc
      have hm : dropPrefix? [c] (c :: cs) = some cs := by
        simp [dropPrefix?]
      rw [replaceAllRun_match rep (by simp) hm, ih]
      simp [cw]
    · have hm : dropPrefix? [p] (c :: cs) = none := by
        simp [dropPrefix?]
        intro h
        exact absurd h.symm hc
      rw [replaceAllRun_nomatch rep hm, ih]
      simp [cw, hc]

/-- Claim C2 (amended): the chained replaces act as one single pass over the
raw input, rewriting each occurrence of `&`, `<`, `>` exactly once (with `&`
rewritten first). Consequently input that already contains an entity such as
`&amp;` has its `&` escaped again; the code does not avoid double-escaping. -/
theorem escapeXml_single_pass (s : List Char) :
    escapeXml s = cw escCharXml s := by
  unfold escapeXml
  rw [replaceAllRun_single '&' "&amp;".data s]
  rw [replaceAllRun_single '<' "&lt;".data _]
  rw [replaceAllRun_single '>' "&gt;".data _]
  rw [cw_cw, cw_cw]
  apply cw_congr
  intro c
  by_cases h1 : c = '&'
  · subst h1; decide
  · by_cases h2 : c = '<'
    · subst h2; decide
    · by_cases h3 : c = '>'
      · subst h3; decide
      · simp [cw, escCharXml, h1, h2, h3]

/-- Counterexample for claim C2 as stated: an input already containing the
escaped sequence `&amp;` is escaped again, yielding `&amp;amp;`. -/
theorem escapeXml_double_escapes :
    escapeXml "&amp;".data = "&amp;amp;".data ∧
      escapeXml "&amp;".data ≠ "&amp;".data := by
  constructor
  · decide
  · decide

/-- Claim C3: on the displayed input the transformer yields exactly two
sections, `Features` (items `add X` and `[breaking] change Y`, the breaking
marker rewritten to a literal `[breaking] ` prefix) and `Fixes`
(item `fix Z`), in that order. -/
theorem parseSecs_features_fixes :
    parseSecs "### Features\n- add X\n- **breaking** change Y\n### Fixes\n- fix Z\n".data
      = [("Features".data, ["add X".data, "[breaking] change Y".data]),
         ("Fixes".data, ["fix Z".data])] := by
  decide

/-- Counterexample for claim C4 as stated: a section whose only item cleans
to the empty string is NOT dropped — its label and list block are rendered,
with an empty `<li></li>` entry. -/
theorem section_with_blank_item_kept :
    parseSecs "### Features\n- **".data = [("Features".data, [[]])] ∧
      appstream "### Features\n- **".data =
        "        <p>Features:</p>\n        <ul>\n          <li></li>\n        </ul>\n".data := by
  constructor
  · decide
  · decide

/-- Claim C4 (amended): only a section whose pending item *list* is empty is
dropped by `flush_section`; items that clean to the empty string still count,
so such a section is kept and renders an empty `<li></li>` entry. -/
theorem flushSec_empty_items_dropped :
    (∀ sec out, flushSec sec [] out = out) ∧
      appstream "### Fixes\n- **\n".data =
        "        <p>Fixes:</p>\n        <ul>\n          <li></li>\n        </ul>\n".data := by
  constructor
  · intro sec out
    cases sec with
    | none => rfl
    | some s => simp [flushSec]
  · decide

/-- Claim C5: whenever the parse yields zero sections, the transformer
returns the single fallback line pointing at the full changelog. -/
theorem appstream_fallback (md : List Char) (h : parseSecs md = []) :
    appstream md = fallbackLine := by
  unfold appstream xmlPartsOf
  rw [h]
  rfl

/-- Witness for C5: input with only a top-level version heading parses to
zero sections, and the fallback line is returned. -/
theorem appstream_fallback_witness :
    parseSecs "## 0.4.0 - 2026-10-12".data = [] ∧
      appstream "## 0.4.0 - 2026-10-12".data = fallbackLine :=
  ⟨by decide, appstream_fallback _ (by decide)⟩

/-- Claim C10: any trimmed line starting with `###` — deeper headings such as
`#### Fixes` included — starts a new section whose pending title is the line
with every occurrence of `###` removed and then trimmed; in particular
`#### Fixes` yields the title `# Fixes` (it is neither skipped nor treated
as an item). -/
theorem procLine_subheading (st : PSt) (rawLine : List Char)
    (h : startsL "###".data (pyTrim rawLine) = true) :
    procLine st rawLine =
      { sec := some (pyTrim (replaceAllRun "###".data [] (pyTrim rawLine))),
        items := [],
        out := flushSec st.sec st.items st.out } ∧
      pyTrim (replaceAllRun "###".data [] (pyTrim "#### Fixes".data)) = "# Fixes".data := by
  refine ⟨?_, by decide⟩
  unfold procLine
  set l := pyTrim rawLine with hl
  obtain ⟨t, ht⟩ : ∃ t, dropPrefix? "###".data l = some t := by
    unfold startsL at h
    cases hm : dropPrefix? "###".data l with
    | none => rw [hm] at h; simp at h
    | some t => exact ⟨t, rfl⟩
  have hlt : l = "###".data ++ t := dropPrefix?_eq_some ht
  have h2 : dropPrefix? "##".data l = some ('#' :: t) := by
    rw [hlt]
    exact dropPrefix?_append "##".data ('#' :: t)
  have hne : l.isEmpty = false := by
    rw [hlt]
    rfl
  simp [startsL, ht, h2, hne]

/-- Witness for C10 at the heading `#### Fixes` and the initial state. -/
theorem procLine_subheading_witness :
    procLine ⟨none, [], []⟩ "#### Fixes".data =
        { sec := some (pyTrim (replaceAllRun "###".data []
            (pyTrim "#### Fixes".data))),
          items := [],
          out := flushSec (none : Option (List Char)) [] [] } ∧
      pyTrim (replaceAllRun "###".data [] (pyTrim "#### Fixes".data)) =
        "# Fixes".data :=
  procLine_subheading ⟨none, [], []⟩ "#### Fixes".data (by decide)

theorem dropWhile_head_false (p : Char → Bool) :
    ∀ (l : List Char) {c : Char} {cs : List Char},
      l.dropWhile p = c :: cs → p c = false := by
  intro l
  induction l with
  | nil => intro c cs h; simp [List.dropWhile] at h
  | cons a l ih =>
    intro c cs h
    rw [List.dropWhile_cons] at h
    by_cases ha : p a
    · rw [if_pos ha] at h; exact ih h
    · rw [if_neg ha] at h
      cases h
      simpa using ha

theorem vcAfterEq_suffix {s3 r : List Char} (h : vcAfterEq s3 = some r) :
    r <:+ s3 := by
  unfold vcAfterEq at h
  split at h
  · next d s5 hw =>
    split at h
    · next hd =>
      cases h
      calc s5.dropWhile digCh <:+ s5 := List.dropWhile_suffix _
        _ <:+ d :: s5 := List.suffix_cons _ _
        _ <:+ s3 := hw ▸ List.dropWhile_suffix wsCh
    · exact absurd h (by simp)
  · exact absurd h (by simp)

theorem vcAfterLit_suffix {s1 r : List Char} (h : vcAfterLit s1 = some r) :
    r <:+ s1 := by
  unfold vcAfterLit at h
  split at h
  · next c s3 hw =>
    split at h
    · calc r <:+ s3 := vcAfterEq_suffix h
        _ <:+ c :: s3 := List.suffix_cons _ _
        _ <:+ s1 := hw ▸ List.dropWhile_suffix wsCh
    · exact absurd h (by simp)
  · exact absurd h (by simp)

/-- The rest returned by a successful match is a proper suffix. -/
theorem matchVC_suffix {s r : List Char} (h : matchVC s = some r) :
    ∃ m, m ≠ [] ∧ s = m ++ r := by
  unfold matchVC at h
  split at h
  · next s1 hp =>
    have hs : s = vcLit ++ s1 := dropPrefix?_eq_some hp
    obtain ⟨m1, hm1⟩ := vcAfterLit_suffix h
    refine ⟨vcLit ++ m1, by simp [vcLit], ?_⟩
    rw [hs, ← hm1]
    simp
  · exact absurd h (by simp)

theorem matchVC_length {s r : List Char} (h : matchVC s = some r) :
    r.length < s.length := by
  obtain ⟨m, hm, hs⟩ := matchVC_suffix h
  subst hs
  cases m with
  | nil => exact absurd rfl hm
  | cons a t => simp [List.length_append]; omega

/-- The digit run of a match is maximal: the rest starts with a non-digit. -/
theorem matchVC_head_not_digit {s r : List Char} (h : matchVC s = some r) :
    ∀ d rs, r = d :: rs → digCh d = false := by
  intro d rs hr
  subst hr
  unfold matchVC at h
  split at h
  · next s1 hp =>
    unfold vcAfterLit at h
    split at h
    · next c s3 hw =>
      split at h
      · next hc =>
        unfold vcAfterEq at h
        split at h
        · next e s5 hw2 =>
          split at h
          · next he =>
            exact dropWhile_head_false digCh s5 (Option.some.inj h)
          · exact absurd h (by simp)
        · exact absurd h (by simp)
      · exact absurd h (by simp)
    · exact absurd h (by simp)
  · exact absurd h (by simp)

theorem subVCF_fuel (ds : List Char) :
    ∀ (f g : Nat) (b : Bool) (s : List Char), s.length ≤ f → s.length ≤ g →
      subVCF ds f b s = subVCF ds g b s := by
  intro f
  induction f with
  | zero =>
    intro g b s hf _
    have : s = [] := List.length_eq_zero.mp (Nat.le_zero.mp hf)
    subst this
    cases b <;> cases g <;> rfl
  | succ f ih =>
    intro g b s hf hg
    cases s with
    | nil => cases b <;> cases g <;> rfl
    | cons c cs =>
      cases g with
      | zero => simp at hg
      | succ g =>
        simp only [List.length_cons] at hf hg
        cases b with
        | false =>
          simp only [subVCF]
          rw [ih g (c == '\n') cs (by omega) (by omega)]
        | true =>
          cases hm : matchVC (c :: cs) with
          | some r =>
            have hr := matchVC_length hm
            simp only [List.length_cons] at hr
            simp only [subVCF, hm]
            rw [ih g false r (by omega) (by omega)]
          | none =>
            simp only [subVCF, hm]
            rw [ih g (c == '\n') cs (by omega) (by omega)]

@[simp] theorem subVCRun_nil (ds : List Char) (b : Bool) :
    subVCRun ds b [] = [] := rfl

theorem subVCRun_false_cons (ds : List Char) (c : Char) (cs : List Char) :
    subVCRun ds false (c :: cs) = c :: subVCRun ds (c == '\n') cs := by
  unfold subVCRun
  simp only [List.length_cons, subVCF]

theorem subVCRun_true_nomatch {c : Char} {cs : List Char} (ds : List Char)
    (hm : matchVC (c :: cs) = none) :
    subVCRun ds true (c :: cs) = c :: subVCRun ds (c == '\n') cs := by
  unfold subVCRun
  simp only [List.length_cons, subVCF, hm]

theorem subVCRun_true_match {c : Char} {cs r : List Char} (ds : List Char)
    (hm : matchVC (c :: cs) = some r) :
    subVCRun ds true (c :: cs) = vcRepl ds ++ subVCRun ds false r := by
  have hr := matchVC_length hm
  simp only [List.length_cons] at hr
  unfold subVCRun
  simp only [List.length_cons, subVCF, hm]
  congr 1
  exact subVCF_fuel ds cs.length r.length false r (by omega) (Nat.le_refl _)

theorem subVCRun_false_lnFree (ds : List Char) :
    ∀ {l : List Char}, lnFree l → subVCRun ds false l = l := by
  intro l
  induction l with
  | nil => intro _; rfl
  | cons c cs ih =>
    intro h
    have hc : c ≠ '\n' := h c (by simp)
    have hb : (c == '\n') = false := by simp [hc]
    rw [subVCRun_false_cons, hb, ih (fun d hd => h d (by simp [hd]))]

theorem subVCRun_false_line (ds : List Char) :
    ∀ {l : List Char}, lnFree l → ∀ (r : List Char),
      subVCRun ds false (l ++ '\n' :: r) = l ++ '\n' :: subVCRun ds true r := by
  intro l
  induction l with
  | nil =>
    intro _ r
    rw [List.nil_append, subVCRun_false_cons]
    simp
  | cons c cs ih =>
    intro h r
    have hc : c ≠ '\n' := h c (by simp)
    have hb : (c == '\n') = false := by simp [hc]
    rw [List.cons_append, subVCRun_false_cons, hb,
      ih (fun d hd => h d (by simp [hd])) r]
    rfl

theorem subVCRun_true_of_nomatch (ds : List Char) {s : List Char}
    (h : matchVC s = none) : subVCRun ds true s = subVCRun ds false s := by
  cases s with
  | nil => rfl
  | cons c cs => rw [subVCRun_true_nomatch ds h, subVCRun_false_cons]

/-- A successful match starts with the literal, hence with `v`. -/
theorem matchVC_some_shape {s r : List Char} (h : matchVC s = some r) :
    ∃ t, s = 'v' :: t := by
  unfold matchVC at h
  split at h
  · next s1 hp =>
    have hs : s = vcLit ++ s1 := dropPrefix?_eq_some hp
    exact ⟨"ersion_code".data ++ s1, by rw [hs]; rfl⟩
  · exact absurd h (by simp)

theorem Rel.consNl (ds : List Char) {a a' : List Char} {c : Char}
    (hc : c ≠ '\n') (h : Rel ds a a') : Rel ds (c :: a) (c :: a') := by
  rcases h with rfl | ⟨l, r, hl, ha, ha'⟩
  · exact Or.inl rfl
  · refine Or.inr ⟨c :: l, r, ?_, by rw [ha]; rfl, by rw [ha']; rfl⟩
    intro d hd
    rcases List.mem_cons.mp hd with rfl | hd'
    · exact hc
    · exact hl d hd'

theorem Rel_self_sub (ds : List Char) (s : List Char) :
    Rel ds s (subVCRun ds false s) := by
  induction s with
  | nil => exact Or.inl rfl
  | cons c cs ih =>
    rw [subVCRun_false_cons]
    by_cases hc : c = '\n'
    · subst hc
      refine Or.inr ⟨[], cs, ?_, rfl, ?_⟩
      · intro d hd
        exact absurd hd (List.not_mem_nil d)
      · simp
    · have hb : (c == '\n') = false := by simp [hc]
      rw [hb]
      exact Rel.consNl ds hc ih

theorem digCh_not_ws {c : Char} (h : digCh c = true) : wsCh c = false := by
  by_contra hw
  have hw' : wsCh c = true := by
    cases hb : wsCh c
    · exact absurd hb hw
    · rfl
  unfold wsCh at hw'
  simp only [Bool.or_eq_true, decide_eq_true_eq] at hw'
  rcases hw' with ((((rfl | rfl) | rfl) | rfl) | rfl) | rfl <;>
    exact absurd h (by decide)

/-- Dropping leading whitespace on both sides of `Rel` yields either `Rel`
again or two strings that both start with `v` (the head of a match site and
of its replacement). -/
theorem Rel_dropWhile_ws (ds : List Char) :
    ∀ (n : Nat) (a a' : List Char), a.length ≤ n → Rel ds a a' →
      Rel ds (a.dropWhile wsCh) (a'.dropWhile wsCh) ∨
        (∃ t t', a.dropWhile wsCh = 'v' :: t ∧ a'.dropWhile wsCh = 'v' :: t') := by
  intro n
  induction n with
  | zero =>
    intro a a' ha h
    have : a = [] := List.length_eq_zero.mp (Nat.le_zero.mp ha)
    subst this
    rcases h with rfl | ⟨l, r, _, hl, _⟩
    · exact Or.inl (Or.inl rfl)
    · exact absurd hl.symm (by simp)
  | succ n ih =>
    intro a a' ha h
    rcases h with rfl | ⟨l, r, hl, rfl, rfl⟩
    · exact Or.inl (Or.inl rfl)
    · by_cases hld : l.dropWhile wsCh = []
      · -- the whole first segment is whitespace; the run crosses the newline
        have hlw : ∀ c ∈ l, wsCh c := List.dropWhile_eq_nil_iff.mp hld
        rw [List.dropWhile_append_of_pos hlw, List.dropWhile_append_of_pos hlw,
          List.dropWhile_cons_of_pos (by decide : wsCh '\n' = true),
          List.dropWhile_cons_of_pos (by decide : wsCh '\n' = true)]
        cases hm : matchVC r with
        | some r0 =>
          obtain ⟨t, rfl⟩ := matchVC_some_shape hm
          rw [subVCRun_true_match ds hm]
          have hrepl : vcRepl ds ++ subVCRun ds false r0 =
              'v' :: ("ersion_code = ".data ++ (ds ++ subVCRun ds false r0)) := by
            rfl
          rw [hrepl,
            List.dropWhile_cons_of_neg (by decide : ¬ wsCh 'v' = true),
            List.dropWhile_cons_of_neg (by decide : ¬ wsCh 'v' = true)]
          exact Or.inr ⟨t, _, rfl, rfl⟩
        | none =>
          rw [subVCRun_true_of_nomatch ds hm]
          have hlen : r.length ≤ n := by
            rw [List.length_append, List.length_cons] at ha
            omega
          exact ih r (subVCRun ds false r) hlen (Rel_self_sub ds r)
      · -- the run stops inside the first segment
        obtain ⟨d, l2, hdl⟩ : ∃ d l2, l.dropWhile wsCh = d :: l2 := by
          cases hx : l.dropWhile wsCh with
          | nil => exact absurd hx hld
          | cons d l2 => exact ⟨d, l2, rfl⟩
        have hsub : ∀ c ∈ l.dropWhile wsCh, c ∈ l :=
          fun c hc => (List.dropWhile_sublist wsCh).subset hc
        rw [List.dropWhile_append, List.dropWhile_append, hdl,
          if_neg (by simp), if_neg (by simp)]
        refine Or.inl (Or.inr ⟨d :: l2, r, ?_, rfl, rfl⟩)
        intro c hc
        exact hl c (hsub c (by rw [hdl]; exact hc))

/-- Stripping a newline-free literal respects `Rel`: it fails on both sides
or succeeds on both with `Rel`-related rests. -/
theorem Rel_dropPrefix (ds : List Char) :
    ∀ (w : List Char), lnFree w → ∀ (a a' : List Char), Rel ds a a' →
      (dropPrefix? w a = none ∧ dropPrefix? w a' = none) ∨
        (∃ t t', dropPrefix? w a = some t ∧ dropPrefix? w a' = some t' ∧
          Rel ds t t') := by
  intro w
  induction w with
  | nil =>
    intro _ a a' h
    exact Or.inr ⟨a, a', rfl, rfl, h⟩
  | cons x w' ih =>
    intro hw a a' h
    have hx : x ≠ '\n' := hw x (by simp)
    have hw' : lnFree w' := fun d hd => hw d (by simp [hd])
    rcases h with rfl | ⟨l, r, hl, rfl, rfl⟩
    · cases hd : dropPrefix? (x :: w') a with
      | none => exact Or.inl ⟨rfl, rfl⟩
      | some t => exact Or.inr ⟨t, t, rfl, rfl, Or.inl rfl⟩
    · cases l with
      | nil =>
        refine Or.inl ⟨?_, ?_⟩ <;>
          · rw [List.nil_append]
            simp only [dropPrefix?, if_neg hx]
      | cons y l2 =>
        by_cases hxy : x = y
        · subst hxy
          have hred : ∀ (z : List Char),
              dropPrefix? (x :: w') (x :: z) = dropPrefix? w' z := by
            intro z
            simp [dropPrefix?]
          rw [List.cons_append, List.cons_append, hred, hred]
          exact ih hw' (l2 ++ '\n' :: r) (l2 ++ '\n' :: subVCRun ds true r)
            (Or.inr ⟨l2, r, fun d hd => hl d (by simp [hd]), rfl, rfl⟩)
        · refine Or.inl ⟨?_, ?_⟩ <;>
          · rw [List.cons_append]
            simp only [dropPrefix?, if_neg hxy]

/-- `\s*\d+` fails on one side of `Rel` iff it fails on the other. -/
theorem vcAfterEq_none_iff (ds : List Char) {t t' : List Char}
    (h : Rel ds t t') : (vcAfterEq t = none ↔ vcAfterEq t' = none) := by
  rcases Rel_dropWhile_ws ds t.length t t' (Nat.le_refl _) h with hrel | ⟨u, u', hu, hu'⟩
  · rcases hrel with heq | ⟨l, r, hl, hA, hA'⟩
    · unfold vcAfterEq
      rw [heq]
    · unfold vcAfterEq
      rw [hA, hA']
      cases l with
      | nil => simp
      | cons d l2 =>
        by_cases hd : digCh d
        · simp [hd]
        · simp [hd]
  · unfold vcAfterEq
    rw [hu, hu']
    simp [show digCh 'v' = false from by decide]

/-- `\s*=\s*\d+` fails on one side of `Rel` iff it fails on the other. -/
theorem vcAfterLit_none_iff (ds : List Char) {t t' : List Char}
    (h : Rel ds t t') : (vcAfterLit t = none ↔ vcAfterLit t' = none) := by
  rcases Rel_dropWhile_ws ds t.length t t' (Nat.le_refl _) h with hrel | ⟨u, u', hu, hu'⟩
  · rcases hrel with heq | ⟨l, r, hl, hA, hA'⟩
    · unfold vcAfterLit
      rw [heq]
    · unfold vcAfterLit
      rw [hA, hA']
      cases l with
      | nil => simp
      | cons d l2 =>
        by_cases hd : d = '='
        · subst hd
          simp only [List.cons_append, if_pos rfl]
          exact vcAfterEq_none_iff ds
            (Or.inr ⟨l2, r, fun e he => hl e (by simp [he]), rfl, rfl⟩)
        · simp [hd]
  · unfold vcAfterLit
    rw [hu, hu']
    simp

/-- Key preservation lemma: where the anchored pattern does not match, it
still does not match after the rest of the text has been rewritten by the
scanner (a replacement site can only be entered through whitespace, and both
the original and the replacement start with the literal `v`). -/
theorem matchVC_none_sub (ds : List Char) {s : List Char}
    (h : matchVC s = none) : matchVC (subVCRun ds false s) = none := by
  have hrel := Rel_self_sub ds s
  have hlit : lnFree vcLit := by
    intro c hc
    intro hceq
    subst hceq
    revert hc
    decide
  rcases Rel_dropPrefix ds vcLit hlit s _ hrel with ⟨h1, h2⟩ | ⟨t, t', h1, h2, hR⟩
  · unfold matchVC
    simp only [h2]
  · unfold matchVC at h ⊢
    simp only [h1] at h
    simp only [h2]
    exact (vcAfterLit_none_iff ds hR).mp h

/-- The pattern matches the replacement text itself, consuming exactly the
replacement (the following text starts with a non-digit, so the greedy digit
run stops at the end of the inserted code). -/
theorem matchVC_repl (ds t : List Char) (hne : ds ≠ [])
    (hdig : ∀ c ∈ ds, digCh c = true)
    (ht : ∀ d rs, t = d :: rs → digCh d = false) :
    matchVC (vcRepl ds ++ t) = some t := by
  have hshape : vcRepl ds ++ t = vcLit ++ (' ' :: '=' :: ' ' :: (ds ++ t)) := by
    simp [vcRepl, vcLit]
  rw [hshape]
  unfold matchVC
  simp only [dropPrefix?_append]
  unfold vcAfterLit
  rw [List.dropWhile_cons_of_pos (by decide : wsCh ' ' = true),
    List.dropWhile_cons_of_neg (by decide : ¬ wsCh '=' = true)]
  show (if ('=' : Char) = '=' then vcAfterEq (' ' :: (ds ++ t)) else none) = some t
  rw [if_pos rfl]
  unfold vcAfterEq
  rw [List.dropWhile_cons_of_pos (by decide : wsCh ' ' = true)]
  cases ds with
  | nil => exact absurd rfl hne
  | cons d0 ds' =>
    have hd0 : digCh d0 = true := hdig d0 (by simp)
    have hds' : ∀ c ∈ ds', digCh c = true := fun c hc => hdig c (by simp [hc])
    rw [List.cons_append,
      List.dropWhile_cons_of_neg (by rw [digCh_not_ws hd0]; simp)]
    show (if digCh d0 = true then some (List.dropWhile digCh (ds' ++ t)) else none)
      = some t
    rw [if_pos hd0]
    congr 1
    rw [List.dropWhile_append_of_pos hds']
    cases t with
    | nil => rfl
    | cons d rs =>
      exact List.dropWhile_cons_of_neg
        (show ¬ digCh d = true by rw [ht d rs rfl]; simp)

/-- Claim C6 core: the `version_code` substitution is idempotent — running
the scan a second time (with the same rendered code) changes nothing. -/
theorem subVCRun_idem (ds : List Char) (hne : ds ≠ [])
    (hdig : ∀ c ∈ ds, digCh c = true) :
    ∀ (n : Nat) (s : List Char), s.length ≤ n → ∀ (b : Bool),
      subVCRun ds b (subVCRun ds b s) = subVCRun ds b s := by
  intro n
  induction n with
  | zero =>
    intro s hs b
    have : s = [] := List.length_eq_zero.mp (Nat.le_zero.mp hs)
    subst this
    rfl
  | succ n ih =>
    intro s hs b
    cases s with
    | nil => rfl
    | cons c cs =>
      simp only [List.length_cons] at hs
      cases b with
      | false =>
        rw [subVCRun_false_cons, subVCRun_false_cons]
        rw [ih cs (by omega) (c == '\n')]
      | true =>
        cases hm : matchVC (c :: cs) with
        | none =>
          have h1 : subVCRun ds true (c :: cs) = subVCRun ds false (c :: cs) :=
            subVCRun_true_of_nomatch ds hm
          have h2 : matchVC (subVCRun ds false (c :: cs)) = none :=
            matchVC_none_sub ds hm
          rw [h1, subVCRun_true_of_nomatch ds h2, subVCRun_false_cons,
            subVCRun_false_cons]
          rw [ih cs (by omega) (c == '\n')]
        | some r =>
          rw [subVCRun_true_match ds hm]
          have hT : ∀ d rs, subVCRun ds false r = d :: rs → digCh d = false := by
            intro d rs hdr
            cases r with
            | nil => exact absurd hdr (by simp)
            | cons r0 rr =>
              rw [subVCRun_false_cons] at hdr
              injection hdr with h1 h2
              rw [← h1]
              exact matchVC_head_not_digit hm r0 rr rfl
          have hmr : matchVC (vcRepl ds ++ subVCRun ds false r) =
              some (subVCRun ds false r) :=
            matchVC_repl ds (subVCRun ds false r) hne hdig hT
          have hshape : vcRepl ds ++ subVCRun ds false r =
              'v' :: ("ersion_code = ".data ++ (ds ++ subVCRun ds false r)) := rfl
          rw [hshape] at hmr ⊢
          rw [subVCRun_true_match ds hmr, ← hshape]
          congr 1
          have hr := matchVC_length hm
          simp only [List.length_cons] at hr
          exact ih r (by omega) false
          -- the recursive use is at `b = false`; adjust

theorem digCharOf_digit (d : Nat) : digCh (digCharOf d) = true := by
  unfold digCharOf
  split <;> decide

theorem natCharsF_ne_nil (f n : Nat) : natCharsF f n ≠ [] := by
  cases f with
  | zero => simp [natCharsF]
  | succ f =>
    unfold natCharsF
    split
    · simp
    · simp

theorem natCharsF_digits (f : Nat) : ∀ (n : Nat) (c : Char),
    c ∈ natCharsF f n → digCh c = true := by
  induction f with
  | zero =>
    intro n c hc
    simp only [natCharsF, List.mem_singleton] at hc
    subst hc
    exact digCharOf_digit n
  | succ f ih =>
    intro n c hc
    unfold natCharsF at hc
    split at hc
    · simp only [List.mem_singleton] at hc
      subst hc
      exact digCharOf_digit n
    · rcases List.mem_append.mp hc with h1 | h2
      · exact ih (n / 10) c h1
      · simp only [List.mem_singleton] at h2
        subst h2
        exact digCharOf_digit (n % 10)

/-- Claim C6: for every manifest text, applying the `version_code`
substitution twice with the same derived code is idempotent — the text after
the second application is identical to the text after the first. -/
theorem subVersionCode_idempotent (code : Nat) (content : List Char) :
    subVersionCode code (subVersionCode code content) =
      subVersionCode code content :=
  subVCRun_idem (natChars code) (natCharsF_ne_nil code code)
    (fun c hc => natCharsF_digits code code c hc)
    content.length content (Nat.le_refl _) true

/-! ### Line-wise behaviour of the `version_code` substitution, and the
`tag:` substitution of the Flatpak manifest
(`re.sub(r"(\s+tag:\s+)v[\d.]+", rf"\1v{version_string}", ...)`). -/

theorem dropPrefix?_extend {w a t : List Char} (u : List Char)
    (h : dropPrefix? w a = some t) : dropPrefix? w (a ++ u) = some (t ++ u) := by
  have ha : a = w ++ t := dropPrefix?_eq_some h
  subst ha
  rw [List.append_assoc]
  exact dropPrefix?_append w (t ++ u)

theorem dropWhile_cons_extend {p : Char → Bool} {a : List Char} {c : Char}
    {t : List Char} (u : List Char) (h : a.dropWhile p = c :: t) :
    (a ++ u).dropWhile p = c :: (t ++ u) := by
  rw [List.dropWhile_append, h]
  simp

theorem vcAfterEq_extend {s3 r : List Char} (u : List Char)
    (hu : ∀ d rs, u = d :: rs → digCh d = false)
    (h : vcAfterEq s3 = some r) : vcAfterEq (s3 ++ u) = some (r ++ u) := by
  unfold vcAfterEq at h ⊢
  split at h
  · next d s5 hw =>
    split at h
    · next hd =>
      rw [dropWhile_cons_extend u hw]
      show (if digCh d = true then some (List.dropWhile digCh (s5 ++ u)) else none)
        = some (r ++ u)
      rw [if_pos hd]
      cases h
      congr 1
      cases hdw : s5.dropWhile digCh with
      | nil =>
        rw [List.dropWhile_append, hdw]
        simp only [List.isEmpty_nil, if_pos rfl, List.nil_append]
        cases u with
        | nil => rfl
        | cons d0 u' => exact List.dropWhile_cons_of_neg (by rw [hu d0 u' rfl]; simp)
      | cons e t =>
        rw [List.dropWhile_append, hdw]
        simp
    · exact absurd h (by simp)
  · exact absurd h (by simp)

theorem vcAfterLit_extend {s1 r : List Char} (u : List Char)
    (hu : ∀ d rs, u = d :: rs → digCh d = false)
    (h : vcAfterLit s1 = some r) : vcAfterLit (s1 ++ u) = some (r ++ u) := by
  unfold vcAfterLit at h ⊢
  split at h
  · next c s3 hw =>
    split at h
    · next hc =>
      rw [dropWhile_cons_extend u hw]
      show (if c = '=' then vcAfterEq (s3 ++ u) else none) = some (r ++ u)
      rw [if_pos hc]
      exact vcAfterEq_extend u hu h
    · exact absurd h (by simp)
  · exact absurd h (by simp)

/-- A match confined to one line extends unchanged when further lines follow
(the rest starts with `'\n'`, which is not a digit, so the greedy digit run
is unaffected). -/
theorem matchVC_extend {l r : List Char} (u : List Char)
    (h : matchVC l = some r) :
    matchVC (l ++ '\n' :: u) = some (r ++ '\n' :: u) := by
  have hu : ∀ d rs, '\n' :: u = d :: rs → digCh d = false := by
    intro d rs hd
    injection hd with h1 _
    rw [← h1]
    decide
  unfold matchVC at h ⊢
  split at h
  · next s1 hp =>
    rw [dropPrefix?_extend ('\n' :: u) hp]
    exact vcAfterLit_extend ('\n' :: u) hu h
  · exact absurd h (by simp)

theorem lnFree_vcLit : lnFree vcLit := by
  intro c hc hceq
  subst hceq
  revert hc
  decide

theorem dropPrefix?_lnFree_nl {w : List Char} (hw : lnFree w) :
    ∀ {l : List Char}, lnFree l → dropPrefix? w l = none →
      ∀ (u : List Char), dropPrefix? w (l ++ '\n' :: u) = none := by
  induction w with
  | nil =>
    intro l _ h _
    exact absurd h (by simp [dropPrefix?])
  | cons x w' ih =>
    intro l hl h u
    have hx : x ≠ '\n' := hw x (by simp)
    cases l with
    | nil =>
      rw [List.nil_append]
      simp only [dropPrefix?, if_neg hx]
    | cons y l2 =>
      rw [List.cons_append]
      by_cases hxy : x = y
      · subst hxy
        simp only [dropPrefix?, if_pos rfl] at h ⊢
        exact ih (fun d hd => hw d (by simp [hd]))
          (fun d hd => hl d (by simp [hd])) h u
      · simp only [dropPrefix?, if_neg hxy]

theorem matchVC_lnFree_rest {l r : List Char} (hl : lnFree l)
    (h : matchVC l = some r) : lnFree r := by
  obtain ⟨m, _, rfl⟩ := matchVC_suffix h
  intro c hc
  exact hl c (List.mem_append.mpr (Or.inr hc))

theorem subVCRun_single_line (ds : List Char) {l : List Char} (hl : lnFree l) :
    subVCRun ds true l = patchLine ds l := by
  cases hm : matchVC l with
  | some r =>
    cases l with
    | nil => exact absurd hm (by simp [matchVC, vcLit, dropPrefix?])
    | cons c cs =>
      rw [subVCRun_true_match ds hm]
      unfold patchLine
      rw [hm, subVCRun_false_lnFree ds (matchVC_lnFree_rest hl hm)]
  | none =>
    rw [subVCRun_true_of_nomatch ds hm, subVCRun_false_lnFree ds hl]
    unfold patchLine
    rw [hm]

@[simp] theorem joinNl_nil : joinNl [] = [] := rfl

@[simp] theorem joinNl_single (l : List Char) : joinNl [l] = l := rfl

theorem joinNl_cons₂ (l x : List Char) (xs : List (List Char)) :
    joinNl (l :: x :: xs) = l ++ '\n' :: joinNl (x :: xs) := rfl

/-- Claim C9 (amended), `version_code` part: on text assembled from
newline-free lines in which every line that begins with the literal
`version_code` contains a complete in-line match of the field pattern, the
substitution acts line by line — matched lines have exactly the matched span
rewritten, and every line not beginning with `version_code` is returned
byte-identical. -/
theorem subVC_linewise (ds : List Char) :
    ∀ (L : List (List Char)),
      (∀ l ∈ L, lnFree l) →
      (∀ l ∈ L, (dropPrefix? vcLit l).isSome = true → matchVC l ≠ none) →
      subVCRun ds true (joinNl L) = joinNl (L.map (patchLine ds)) ∧
        ∀ l ∈ L, dropPrefix? vcLit l = none → patchLine ds l = l := by
  intro L
  induction L with
  | nil =>
    intro _ _
    exact ⟨rfl, fun l hl => absurd hl (List.not_mem_nil l)⟩
  | cons l ls ih =>
    intro hfree hmatch
    have hfree' : ∀ x ∈ ls, lnFree x := fun x hx => hfree x (by simp [hx])
    have hmatch' : ∀ x ∈ ls, (dropPrefix? vcLit x).isSome = true → matchVC x ≠ none :=
      fun x hx => hmatch x (by simp [hx])
    have hkeep : ∀ x ∈ l :: ls, dropPrefix? vcLit x = none → patchLine ds x = x := by
      intro x _ hx
      unfold patchLine
      have : matchVC x = none := by
        unfold matchVC
        simp only [hx]
      rw [this]
    refine ⟨?_, hkeep⟩
    have hlf : lnFree l := hfree l (by simp)
    cases ls with
    | nil =>
      rw [joinNl_single, List.map_cons, List.map_nil, joinNl_single]
      exact subVCRun_single_line ds hlf
    | cons l2 ls' =>
      rw [joinNl_cons₂, List.map_cons, List.map_cons, joinNl_cons₂, ← List.map_cons]
      have hIH := (ih hfree' hmatch').1
      cases hm : matchVC l with
      | some r =>
        have hext := matchVC_extend (joinNl (l2 :: ls')) hm
        cases hl0 : l with
        | nil => exact absurd (hl0 ▸ hm) (by simp [matchVC, vcLit, dropPrefix?])
        | cons c cs =>
          rw [hl0] at hext hm
          rw [List.cons_append] at hext
          rw [List.cons_append, subVCRun_true_match ds hext,
            subVCRun_false_line ds (matchVC_lnFree_rest (hl0 ▸ hlf) hm) _,
            hIH]
          unfold patchLine
          rw [hm]
          simp
      | none =>
        have hlitnone : dropPrefix? vcLit l = none := by
          cases hlit : dropPrefix? vcLit l with
          | none => rfl
          | some t =>
            exact absurd hm (hmatch l (by simp) (by rw [hlit]; rfl))
        have hjnone : matchVC (l ++ '\n' :: joinNl (l2 :: ls')) = none := by
          unfold matchVC
          rw [dropPrefix?_lnFree_nl lnFree_vcLit hlf hlitnone]
        rw [subVCRun_true_of_nomatch ds hjnone,
          subVCRun_false_line ds hlf _, hIH]
        rw [hkeep l (by simp) hlitnone]

theorem tagStep_some {ver s rep rest : List Char}
    (h : tagStep ver s = some (rep, rest)) :
    ∃ g vd, s = g ++ (('v' :: vd) ++ rest) ∧ rep = g ++ ('v' :: ver) ∧
      vd ≠ [] ∧ (∀ c ∈ vd, tokCh c = true) := by
  unfold tagStep at h
  by_cases h1 : (s.takeWhile wsCh).isEmpty
  · rw [if_pos h1] at h
    exact absurd h (by simp)
  · rw [if_neg h1] at h
    cases htag : dropPrefix? "tag:".data (s.dropWhile wsCh) with
    | none =>
      rw [htag] at h
      exact absurd h (by simp)
    | some t1 =>
      rw [htag] at h
      simp only at h
      by_cases h2 : (t1.takeWhile wsCh).isEmpty
      · rw [if_pos h2] at h
        exact absurd h (by simp)
      · rw [if_neg h2] at h
        cases hdw : t1.dropWhile wsCh with
        | nil =>
          rw [hdw] at h
          exact absurd h (by simp)
        | cons c t2 =>
          rw [hdw] at h
          simp only at h
          by_cases hv : c = 'v'
          · rw [if_pos hv] at h
            subst hv
            by_cases h3 : (t2.takeWhile tokCh).isEmpty
            · rw [if_pos h3] at h
              exact absurd h (by simp)
            · rw [if_neg h3] at h
              have hpair : (s.takeWhile wsCh ++ "tag:".data ++
                    t1.takeWhile wsCh ++ 'v' :: ver, t2.dropWhile tokCh) =
                  (rep, rest) := Option.some.inj h
              have hrep : rep = s.takeWhile wsCh ++ "tag:".data ++
                  t1.takeWhile wsCh ++ 'v' :: ver :=
                (congrArg Prod.fst hpair).symm
              have hrest : rest = t2.dropWhile tokCh :=
                (congrArg Prod.snd hpair).symm
              refine ⟨s.takeWhile wsCh ++ "tag:".data ++ t1.takeWhile wsCh,
                t2.takeWhile tokCh, ?_, hrep, ?_, ?_⟩
              · have e1 : s = s.takeWhile wsCh ++ s.dropWhile wsCh :=
                  (List.takeWhile_append_dropWhile wsCh s).symm
                have e2 : s.dropWhile wsCh = "tag:".data ++ t1 :=
                  dropPrefix?_eq_some htag
                have e3 : t1 = t1.takeWhile wsCh ++ ('v' :: t2) := by
                  rw [← hdw]
                  exact (List.takeWhile_append_dropWhile wsCh t1).symm
                have e4 : t2 = t2.takeWhile tokCh ++ t2.dropWhile tokCh :=
                  (List.takeWhile_append_dropWhile tokCh t2).symm
                have e3' : t1 = t1.takeWhile wsCh ++
                    ('v' :: (t2.takeWhile tokCh ++ t2.dropWhile tokCh)) := by
                  conv_rhs => rw [← e4]
                  exact e3
                have e2' : s.dropWhile wsCh = "tag:".data ++
                    (t1.takeWhile wsCh ++
                      ('v' :: (t2.takeWhile tokCh ++ t2.dropWhile tokCh))) := by
                  conv_rhs => rw [← e3']
                  exact e2
                have hs : s = s.takeWhile wsCh ++ ("tag:".data ++
                    (t1.takeWhile wsCh ++
                      ('v' :: (t2.takeWhile tokCh ++ t2.dropWhile tokCh)))) := by
                  conv_rhs => rw [← e2']
                  exact e1
                rw [hrest]
                exact hs.trans (by simp)
              · intro hnil
                rw [hnil] at h3
                exact h3 rfl
              · intro c hc
                exact List.mem_takeWhile_imp hc
          · rw [if_neg hv] at h
            exact absurd h (by simp)

theorem commitStep_some {hash s rep rest : List Char}
    (h : commitStep hash s = some (rep, rest)) :
    ∃ g hx, s = g ++ (hx ++ rest) ∧ rep = g ++ hash ∧ g ≠ [] ∧
      hx.length = 40 ∧ (∀ c ∈ hx, hexCh c = true) := by
  unfold commitStep at h
  by_cases h1 : (s.takeWhile wsCh).isEmpty
  · rw [if_pos h1] at h
    exact absurd h (by simp)
  · rw [if_neg h1] at h
    cases htag : dropPrefix? "commit:".data (s.dropWhile wsCh) with
    | none =>
      rw [htag] at h
      exact absurd h (by simp)
    | some t1 =>
      rw [htag] at h
      simp only at h
      by_cases h2 : (t1.takeWhile wsCh).isEmpty
      · rw [if_pos h2] at h
        exact absurd h (by simp)
      · rw [if_neg h2] at h
        by_cases h3 : (((t1.dropWhile wsCh).take 40).length = 40 &&
            ((t1.dropWhile wsCh).take 40).all hexCh) = true
        · rw [if_pos h3] at h
          have hpair : (s.takeWhile wsCh ++ "commit:".data ++
                t1.takeWhile wsCh ++ hash, (t1.dropWhile wsCh).drop 40) =
              (rep, rest) := Option.some.inj h
          have hrep : rep = s.takeWhile wsCh ++ "commit:".data ++
              t1.takeWhile wsCh ++ hash :=
            (congrArg Prod.fst hpair).symm
          have hrest : rest = (t1.dropWhile wsCh).drop 40 :=
            (congrArg Prod.snd hpair).symm
          have h3' := h3
          rw [Bool.and_eq_true] at h3'
          refine ⟨s.takeWhile wsCh ++ "commit:".data ++ t1.takeWhile wsCh,
            (t1.dropWhile wsCh).take 40, ?_, hrep, ?_, ?_, ?_⟩
          · have e1 : s = s.takeWhile wsCh ++ s.dropWhile wsCh :=
              (List.takeWhile_append_dropWhile wsCh s).symm
            have e2 : s.dropWhile wsCh = "commit:".data ++ t1 :=
              dropPrefix?_eq_some htag
            have e3 : t1 = t1.takeWhile wsCh ++
                ((t1.dropWhile wsCh).take 40 ++ (t1.dropWhile wsCh).drop 40) := by
              rw [List.take_append_drop]
              exact (List.takeWhile_append_dropWhile wsCh t1).symm
            have e2' : s.dropWhile wsCh = "commit:".data ++
                (t1.takeWhile wsCh ++
                  ((t1.dropWhile wsCh).take 40 ++ (t1.dropWhile wsCh).drop 40)) := by
              conv_rhs => rw [← e3]
              exact e2
            have hs : s = s.takeWhile wsCh ++ ("commit:".data ++
                (t1.takeWhile wsCh ++
                  ((t1.dropWhile wsCh).take 40 ++ (t1.dropWhile wsCh).drop 40))) := by
              conv_rhs => rw [← e2']
              exact e1
            rw [hrest]
            exact hs.trans (by simp)
          · intro hg
            rw [List.append_eq_nil, List.append_eq_nil] at hg
            have : ¬ ("commit:".data = ([] : List Char)) := by decide
            exact this hg.1.2
          · exact of_decide_eq_true h3'.1
          · intro c hc
            exact List.all_eq_true.mp h3'.2 c hc
        · rw [if_neg h3] at h
          exact absurd h (by simp)

theorem tagStep_length {ver s rep rest : List Char}
    (h : tagStep ver s = some (rep, rest)) : rest.length < s.length := by
  obtain ⟨g, vd, hs, _, _, _⟩ := tagStep_some h
  rw [hs]
  simp only [List.length_append, List.length_cons]
  omega

theorem commitStep_length {hash s rep rest : List Char}
    (h : commitStep hash s = some (rep, rest)) : rest.length < s.length := by
  obtain ⟨g, hx, hs, _, hg, hx40, _⟩ := commitStep_some h
  have : g.length ≠ 0 := fun h0 => hg (List.length_eq_zero.mp h0)
  rw [hs]
  simp only [List.length_append]
  omega

theorem tagSubF_fuel (ver : List Char) :
    ∀ (f g : Nat) (s : List Char), s.length ≤ f → s.length ≤ g →
      tagSubF ver f s = tagSubF ver g s := by
  intro f
  induction f with
  | zero =>
    intro g s hf _
    have : s = [] := List.length_eq_zero.mp (Nat.le_zero.mp hf)
    subst this
    cases g <;> rfl
  | succ f ih =>
    intro g s hf hg
    cases s with
    | nil => cases g <;> rfl
    | cons c cs =>
      cases g with
      | zero => simp at hg
      | succ g =>
        simp only [List.length_cons] at hf hg
        cases hm : tagStep ver (c :: cs) with
        | some pr =>
          obtain ⟨rep, rest⟩ := pr
          have hr := tagStep_length hm
          simp only [List.length_cons] at hr
          simp only [tagSubF, hm]
          rw [ih g rest (by omega) (by omega)]
        | none =>
          simp only [tagSubF, hm]
          rw [ih g cs (by omega) (by omega)]

theorem commitSubF_fuel (hash : List Char) :
    ∀ (f g : Nat) (s : List Char), s.length ≤ f → s.length ≤ g →
      commitSubF hash f s = commitSubF hash g s := by
  intro f
  induction f with
  | zero =>
    intro g s hf _
    have : s = [] := List.length_eq_zero.mp (Nat.le_zero.mp hf)
    subst this
    cases g <;> rfl
  | succ f ih =>
    intro g s hf hg
    cases s with
    | nil => cases g <;> rfl
    | cons c cs =>
      cases g with
      | zero => simp at hg
      | succ g =>
        simp only [List.length_cons] at hf hg
        cases hm : commitStep hash (c :: cs) with
        | some pr =>
          obtain ⟨rep, rest⟩ := pr
          have hr := commitStep_length hm
          simp only [List.length_cons] at hr
          simp only [commitSubF, hm]
          rw [ih g rest (by omega) (by omega)]
        | none =>
          simp only [commitSubF, hm]
          rw [ih g cs (by omega) (by omega)]

theorem tagSubRun_nomatch {ver : List Char} {c : Char} {cs : List Char}
    (hm : tagStep ver (c :: cs) = none) :
    tagSubRun ver (c :: cs) = c :: tagSubRun ver cs := by
  unfold tagSubRun
  simp only [List.length_cons, tagSubF, hm]

theorem tagSubRun_match {ver : List Char} {c : Char} {cs rep rest : List Char}
    (hm : tagStep ver (c :: cs) = some (rep, rest)) :
    tagSubRun ver (c :: cs) = rep ++ tagSubRun ver rest := by
  have hr := tagStep_length hm
  simp only [List.length_cons] at hr
  unfold tagSubRun
  simp only [List.length_cons, tagSubF, hm]
  congr 1
  exact tagSubF_fuel ver cs.length rest.length rest (by omega) (Nat.le_refl _)

theorem commitSubRun_nomatch {hash : List Char} {c : Char} {cs : List Char}
    (hm : commitStep hash (c :: cs) = none) :
    commitSubRun hash (c :: cs) = c :: commitSubRun hash cs := by
  unfold commitSubRun
  simp only [List.length_cons, commitSubF, hm]

theorem commitSubRun_match {hash : List Char} {c : Char}
    {cs rep rest : List Char}
    (hm : commitStep hash (c :: cs) = some (rep, rest)) :
    commitSubRun hash (c :: cs) = rep ++ commitSubRun hash rest := by
  have hr := commitStep_length hm
  simp only [List.length_cons] at hr
  unfold commitSubRun
  simp only [List.length_cons, commitSubF, hm]
  congr 1
  exact commitSubF_fuel hash cs.length rest.length rest (by omega) (Nat.le_refl _)

theorem SpanRw.append_left {P : List Char → Prop} {rep : List Char}
    (p : List Char) {s t : List Char} (h : SpanRw P rep s t) :
    SpanRw P rep (p ++ s) (p ++ t) := by
  induction p with
  | nil => simpa using h
  | cons c p ih => exact SpanRw.copy c ih

/-- The whole `tag:` substitution only rewrites `v`-version tokens in place,
copying every other character verbatim. -/
theorem tagSub_spanRw (ver : List Char) :
    ∀ (n : Nat) (s : List Char), s.length ≤ n →
      SpanRw tagTok ('v' :: ver) s (tagSubRun ver s) := by
  intro n
  induction n with
  | zero =>
    intro s hs
    have : s = [] := List.length_eq_zero.mp (Nat.le_zero.mp hs)
    subst this
    exact SpanRw.nil
  | succ n ih =>
    intro s hs
    cases s with
    | nil => exact SpanRw.nil
    | cons c cs =>
      simp only [List.length_cons] at hs
      cases hm : tagStep ver (c :: cs) with
      | none =>
        rw [tagSubRun_nomatch hm]
        exact SpanRw.copy c (ih cs (by omega))
      | some pr =>
        obtain ⟨rep, rest⟩ := pr
        have hlen := tagStep_length hm
        simp only [List.length_cons] at hlen
        obtain ⟨g, vd, hdec, hrep, hvd, hvdall⟩ := tagStep_some hm
        rw [tagSubRun_match hm, hdec, hrep, List.append_assoc]
        exact SpanRw.append_left g
          (SpanRw.subst ('v' :: vd) ⟨vd, rfl, hvd, hvdall⟩ (ih rest (by omega)))

/-- The whole `commit:` substitution only rewrites 40-character hash tokens
in place, copying every other character verbatim. -/
theorem commitSub_spanRw (hash : List Char) :
    ∀ (n : Nat) (s : List Char), s.length ≤ n →
      SpanRw commitTok hash s (commitSubRun hash s) := by
  intro n
  induction n with
  | zero =>
    intro s hs
    have : s = [] := List.length_eq_zero.mp (Nat.le_zero.mp hs)
    subst this
    exact SpanRw.nil
  | succ n ih =>
    intro s hs
    cases s with
    | nil => exact SpanRw.nil
    | cons c cs =>
      simp only [List.length_cons] at hs
      cases hm : commitStep hash (c :: cs) with
      | none =>
        rw [commitSubRun_nomatch hm]
        exact SpanRw.copy c (ih cs (by omega))
      | some pr =>
        obtain ⟨rep, rest⟩ := pr
        have hlen := commitStep_length hm
        simp only [List.length_cons] at hlen
        obtain ⟨g, hx, hdec, hrep, _, hx40, hxall⟩ := commitStep_some hm
        rw [commitSubRun_match hm, hdec, hrep, List.append_assoc]
        exact SpanRw.append_left g
          (SpanRw.subst hx ⟨hx40, hxall⟩ (ih rest (by omega)))

theorem splitNl_ne_nil (s : List Char) : splitNl s ≠ [] := by
  cases s with
  | nil => simp [splitNl]
  | cons c cs =>
    unfold splitNl
    by_cases hc : c = '\n'
    · simp [hc]
    · rw [if_neg hc]
      cases splitNl cs <;> simp

theorem splitNl_nl (s : List Char) : splitNl ('\n' :: s) = [] :: splitNl s := by
  simp [splitNl]

theorem splitNl_cons_ne {c : Char} (hc : c ≠ '\n') (s : List Char) :
    ∃ h t, splitNl s = h :: t ∧ splitNl (c :: s) = (c :: h) :: t := by
  cases hs : splitNl s with
  | nil => exact absurd hs (splitNl_ne_nil s)
  | cons h t =>
    refine ⟨h, t, rfl, ?_⟩
    unfold splitNl
    rw [if_neg hc, hs]

theorem splitNl_append_lnFree {a : List Char} (ha : lnFree a) (s : List Char) :
    ∃ h t, splitNl s = h :: t ∧ splitNl (a ++ s) = (a ++ h) :: t := by
  induction a with
  | nil =>
    cases hs : splitNl s with
    | nil => exact absurd hs (splitNl_ne_nil s)
    | cons h t => exact ⟨h, t, rfl, by simpa using hs⟩
  | cons c a ih =>
    have hc : c ≠ '\n' := ha c (by simp)
    obtain ⟨h, t, hs, hres⟩ := ih (fun d hd => ha d (by simp [hd]))
    obtain ⟨h2, t2, hs2, hres2⟩ := splitNl_cons_ne hc (a ++ s)
    rw [hres] at hs2
    injection hs2 with e1 e2
    refine ⟨h, t, hs, ?_⟩
    rw [List.cons_append, hres2, ← e1, ← e2, List.cons_append]

/-- A span rewrite with newline-free spans and replacement respects the line
structure: same number of lines, corresponding lines related line-wise. -/
theorem SpanRw.lines {P : List Char → Prop} {rep : List Char}
    (hP : ∀ tk, P tk → lnFree tk) (hrep : lnFree rep) :
    ∀ {s t : List Char}, SpanRw P rep s t →
      List.Forall₂ (SpanRw P rep) (splitNl s) (splitNl t) := by
  intro s t h
  induction h with
  | nil => exact List.Forall₂.cons SpanRw.nil List.Forall₂.nil
  | copy c h ih =>
    by_cases hc : c = '\n'
    · subst hc
      rw [splitNl_nl, splitNl_nl]
      exact List.Forall₂.cons SpanRw.nil ih
    · obtain ⟨h1, t1, hs1, hr1⟩ := splitNl_cons_ne hc _
      obtain ⟨h2, t2, hs2, hr2⟩ := splitNl_cons_ne hc _
      rw [hr1, hr2]
      rw [hs1, hs2] at ih
      cases ih with
      | cons hhead htail => exact List.Forall₂.cons (SpanRw.copy c hhead) htail
  | subst tk hPtk h ih =>
    obtain ⟨h1, t1, hs1, hr1⟩ := splitNl_append_lnFree (hP tk hPtk) _
    obtain ⟨h2, t2, hs2, hr2⟩ := splitNl_append_lnFree hrep _
    rw [hr1, hr2]
    rw [hs1, hs2] at ih
    cases ih with
    | cons hhead htail => exact List.Forall₂.cons (SpanRw.subst tk hPtk hhead) htail

/-- A string containing no replaceable span is returned byte-identical. -/
theorem SpanRw.eq_of_spanFree {P : List Char → Prop} {rep : List Char} :
    ∀ {s t : List Char}, SpanRw P rep s t →
      (∀ pre tk post, s = pre ++ (tk ++ post) → ¬ P tk) → s = t := by
  intro s t h
  induction h with
  | nil => intro _; rfl
  | copy c h ih =>
    rename_i s0 t0
    intro hfree
    have hfree' : ∀ pre tk post, s0 = pre ++ (tk ++ post) → ¬ P tk := by
      intro pre tk post hdecomp
      exact hfree (c :: pre) tk post (by rw [List.cons_append, ← hdecomp])
    rw [ih hfree']
  | subst tk hPtk h ih =>
    intro hfree
    exact absurd hPtk (hfree [] tk _ rfl)

/-- Counterexample to claim C9 as stated: `\s` also matches a newline, so a
`version_code` field split across lines is matched and rewritten as a whole.
The input line `= 5` does not match the anchored field pattern, yet the
output has no such line — its position now holds `b`. -/
theorem anchored_patch_not_linewise :
    matchVC "= 5".data = none ∧
      (splitNl "version_code\n= 5\nb\nc".data)[1]? = some "= 5".data ∧
      (splitNl (subVersionCode 302 "version_code\n= 5\nb\nc".data))[1]? =
        some "b".data :=
  ⟨by decide, by decide, by decide⟩

theorem tagTok_lnFree : ∀ tk, tagTok tk → lnFree tk := by
  intro tk htk c hc hceq
  obtain ⟨vd, htke, _, hall⟩ := htk
  subst hceq
  rw [htke] at hc
  rcases List.mem_cons.mp hc with h | h
  · exact absurd h.symm (by decide)
  · have := hall _ h
    rw [show tokCh '\n' = false from by decide] at this
    exact absurd this (by simp)

theorem commitTok_lnFree : ∀ tk, commitTok tk → lnFree tk := by
  intro tk htk c hc hceq
  obtain ⟨_, hall⟩ := htk
  subst hceq
  have := hall _ hc
  rw [show hexCh '\n' = false from by decide] at this
  exact absurd this (by simp)

/-- Claim C9 (amended): every substitution touches only its anchored field.
For `version_code`, where the counterexample shows a match may span lines
(Python's `\s` matches newlines), the line-wise reading holds whenever no
match does: on newline-free lines in which every line beginning with
`version_code` contains a complete in-line match, the substitution acts line
by line — matched lines are rewritten only in their matched span, every line
not beginning with `version_code` is byte-identical.  For the `tag:` and
`commit:` substitutions the line-wise reading holds with no proviso at all,
for every input text: the matched whitespace (even spanning newlines) is
kept verbatim by the capture group and the replaced token is newline-free,
so the output has exactly the same lines, each output line arises from its
input line by replacing version/hash tokens in place, and every line that
contains no such token is byte-identical. -/
theorem anchored_patch_linewise (ds ver hash : List Char)
    (L : List (List Char)) (s₁ s₂ : List Char)
    (hfree : ∀ l ∈ L, lnFree l)
    (hmatch : ∀ l ∈ L, (dropPrefix? vcLit l).isSome = true → matchVC l ≠ none)
    (hver : lnFree ver) (hhash : lnFree hash) :
    (subVCRun ds true (joinNl L) = joinNl (L.map (patchLine ds)) ∧
      ∀ l ∈ L, dropPrefix? vcLit l = none → patchLine ds l = l) ∧
    (List.Forall₂ (SpanRw tagTok ('v' :: ver)) (splitNl s₁)
        (splitNl (tagSubRun ver s₁)) ∧
      (splitNl (tagSubRun ver s₁)).length = (splitNl s₁).length ∧
      List.Forall₂ (fun a b =>
          (∀ pre tk post, a = pre ++ (tk ++ post) → ¬ tagTok tk) → a = b)
        (splitNl s₁) (splitNl (tagSubRun ver s₁))) ∧
    (List.Forall₂ (SpanRw commitTok hash) (splitNl s₂)
        (splitNl (commitSubRun hash s₂)) ∧
      (splitNl (commitSubRun hash s₂)).length = (splitNl s₂).length ∧
      List.Forall₂ (fun a b =>
          (∀ pre tk post, a = pre ++ (tk ++ post) → ¬ commitTok tk) → a = b)
        (splitNl s₂) (splitNl (commitSubRun hash s₂))) := by
  have hverRep : lnFree ('v' :: ver) := by
    intro c hc hceq
    subst hceq
    rcases List.mem_cons.mp hc with h | h
    · exact absurd h.symm (by decide)
    · exact hver '\n' h rfl
  have htagMain : SpanRw tagTok ('v' :: ver) s₁ (tagSubRun ver s₁) :=
    tagSub_spanRw ver s₁.length s₁ (Nat.le_refl _)
  have htagLines := SpanRw.lines tagTok_lnFree hverRep htagMain
  have hcomMain : SpanRw commitTok hash s₂ (commitSubRun hash s₂) :=
    commitSub_spanRw hash s₂.length s₂ (Nat.le_refl _)
  have hcomLines := SpanRw.lines commitTok_lnFree hhash hcomMain
  refine ⟨subVC_linewise ds L hfree hmatch,
    ⟨htagLines, htagLines.length_eq.symm, ?_⟩,
    ⟨hcomLines, hcomLines.length_eq.symm, ?_⟩⟩
  · exact htagLines.imp (fun a b hrel hnotok => SpanRw.eq_of_spanFree hrel hnotok)
  · exact hcomLines.imp (fun a b hrel hnotok => SpanRw.eq_of_spanFree hrel hnotok)

/-- Witness for the amended C9: a concrete three-line Cargo manifest for the
`version_code` part, and concrete Flatpak-manifest fragments for the `tag:`
and `commit:` parts. -/
theorem anchored_patch_linewise_witness :
    (subVCRun "302".data true
        (joinNl ["[package]".data, "version_code = 5".data, "name = x".data]) =
      joinNl (["[package]".data, "version_code = 5".data, "name = x".data].map
        (patchLine "302".data)) ∧
      ∀ l ∈ ["[package]".data, "version_code = 5".data, "name = x".data],
        dropPrefix? vcLit l = none → patchLine "302".data l = l) ∧
    (List.Forall₂ (SpanRw tagTok ('v' :: "0.4.0".data))
        (splitNl "    tag: v0.3.1\n    url: x".data)
        (splitNl (tagSubRun "0.4.0".data "    tag: v0.3.1\n    url: x".data)) ∧
      (splitNl (tagSubRun "0.4.0".data
          "    tag: v0.3.1\n    url: x".data)).length =
        (splitNl "    tag: v0.3.1\n    url: x".data).length ∧
      List.Forall₂ (fun a b =>
          (∀ pre tk post, a = pre ++ (tk ++ post) → ¬ tagTok tk) → a = b)
        (splitNl "    tag: v0.3.1\n    url: x".data)
        (splitNl (tagSubRun "0.4.0".data
          "    tag: v0.3.1\n    url: x".data))) ∧
    (List.Forall₂
        (SpanRw commitTok "bbbbbbbbbbbbbbbbbbbbbbbbbbbbbbbbbbbbbbbb".data)
        (splitNl
          "    commit: aaaaaaaaaaaaaaaaaaaaaaaaaaaaaaaaaaaaaaaa\n    x: y".data)
        (splitNl (commitSubRun "bbbbbbbbbbbbbbbbbbbbbbbbbbbbbbbbbbbbbbbb".data
          "    commit: aaaaaaaaaaaaaaaaaaaaaaaaaaaaaaaaaaaaaaaa\n    x: y".data)) ∧
      (splitNl (commitSubRun "bbbbbbbbbbbbbbbbbbbbbbbbbbbbbbbbbbbbbbbb".data
          "    commit: aaaaaaaaaaaaaaaaaaaaaaaaaaaaaaaaaaaaaaaa\n    x: y".data)).length =
        (splitNl
          "    commit: aaaaaaaaaaaaaaaaaaaaaaaaaaaaaaaaaaaaaaaa\n    x: y".data).length ∧
      List.Forall₂ (fun a b =>
          (∀ pre tk post, a = pre ++ (tk ++ post) → ¬ commitTok tk) → a = b)
        (splitNl
          "    commit: aaaaaaaaaaaaaaaaaaaaaaaaaaaaaaaaaaaaaaaa\n    x: y".data)
        (splitNl (commitSubRun "bbbbbbbbbbbbbbbbbbbbbbbbbbbbbbbbbbbbbbbb".data
          "    commit: aaaaaaaaaaaaaaaaaaaaaaaaaaaaaaaaaaaaaaaa\n    x: y".data))) :=
  anchored_patch_linewise "302".data "0.4.0".data
    "bbbbbbbbbbbbbbbbbbbbbbbbbbbbbbbbbbbbbbbb".data
    ["[package]".data, "version_code = 5".data, "name = x".data]
    "    tag: v0.3.1\n    url: x".data
    "    commit: aaaaaaaaaaaaaaaaaaaaaaaaaaaaaaaaaaaaaaaa\n    x: y".data
    (by
      intro l hl
      fin_cases hl <;>
        · intro c hc hceq
          subst hceq
          revert hc
          decide)
    (by decide)
    (by
      intro c hc hceq
      subst hceq
      revert hc
      decide)
    (by
      intro c hc hceq
      subst hceq
      revert hc
      decide)

/-- Claim C8: on manifest text in which no line matches the anchored
three-part version field, both scripts fail with the diagnostic message and
exit code 1, and no file content has been written at that point. -/
theorem missing_version_aborts (content : List Char)
    (h : findVer true content = none) :
    syncMain content = ⟨1, missingVersionMsg, none⟩ ∧
      prepareDerive content = Except.error missingVersionMsg := by
  constructor
  · unfold syncMain
    simp only [h]
  · unfold prepareDerive
    simp only [h]

/-- Witness for C8 on a manifest without a version field. -/
theorem missing_version_aborts_witness :
    syncMain "name = \"cfait\"\nedition = \"2021\"".data =
        ⟨1, missingVersionMsg, none⟩ ∧
      prepareDerive "name = \"cfait\"\nedition = \"2021\"".data =
        Except.error missingVersionMsg :=
  missing_version_aborts _ (by decide)

theorem dropPrefix?_none_append {pat : List Char} :
    ∀ {u : List Char} (v : List Char), dropPrefix? pat u = none →
      pat.length ≤ u.length → dropPrefix? pat (u ++ v) = none := by
  induction pat with
  | nil =>
    intro u v h _
    exact absurd h (by simp [dropPrefix?])
  | cons p ps ih =>
    intro u v h hlen
    cases u with
    | nil => simp at hlen
    | cons c cs =>
      rw [List.cons_append]
      by_cases hpc : p = c
      · subst hpc
        simp only [dropPrefix?, if_pos rfl] at h ⊢
        simp only [List.length_cons, Nat.add_le_add_iff_right] at hlen
        exact ih v h hlen
      · simp only [dropPrefix?, if_neg hpc]

theorem replaceAllRun_skip (pat rep : List Char) :
    ∀ (A B : List Char),
      (∀ i, i < A.length → dropPrefix? pat ((A ++ B).drop i) = none) →
      replaceAllRun pat rep (A ++ B) = A ++ replaceAllRun pat rep B := by
  intro A
  induction A with
  | nil => intro B _; rw [List.nil_append, List.nil_append]
  | cons c A' ih =>
    intro B h
    have h0 : dropPrefix? pat (c :: (A' ++ B)) = none := by
      have := h 0 (by simp)
      simpa using this
    rw [List.cons_append, replaceAllRun_nomatch rep h0, ih B ?_, List.cons_append]
    intro i hi
    have := h (i + 1) (by simp only [List.length_cons]; omega)
    simpa using this

theorem replaceAllRun_here (pat rep C : List Char) (hp : pat ≠ []) :
    replaceAllRun pat rep (pat ++ C) = rep ++ replaceAllRun pat rep C := by
  cases pat with
  | nil => exact absurd rfl hp
  | cons p ps =>
    rw [List.cons_append]
    exact replaceAllRun_match rep hp
      (by rw [← List.cons_append]; exact dropPrefix?_append _ _)

theorem replaceAllRun_nowhere (pat rep : List Char) :
    ∀ (C : List Char),
      (∀ i, i < C.length → dropPrefix? pat (C.drop i) = none) →
      replaceAllRun pat rep C = C := by
  intro C
  induction C with
  | nil => exact fun _ => replaceAllRun_nil pat rep
  | cons c cs ih =>
    intro h
    have h0 : dropPrefix? pat (c :: cs) = none := by
      have := h 0 (by simp)
      simpa using this
    rw [replaceAllRun_nomatch rep h0, ih ?_]
    intro i hi
    have := h (i + 1) (by simp only [List.length_cons]; omega)
    simpa using this

theorem hasSub_of_decomp (pat : List Char) (hp : pat ≠ []) :
    ∀ (A B : List Char), hasSub pat (A ++ (pat ++ B)) = true := by
  intro A
  induction A with
  | nil =>
    intro B
    rw [List.nil_append]
    cases pat with
    | nil => exact absurd rfl hp
    | cons p ps =>
      rw [List.cons_append]
      unfold hasSub
      rw [← List.cons_append, dropPrefix?_append]
      rfl
  | cons a A' ih =>
    intro B
    rw [List.cons_append]
    unfold hasSub
    rw [ih B]
    simp

/-- Claim C7: on a metainfo document with a single `<releases>` opening tag
(and a release element free of that tag), running the insertion twice yields
two copies of the release element, each inserted right after the opening
tag: the step is not idempotent, and new entries land newest-first. -/
theorem insertRelease_twice (X Y R : List Char)
    (hX : ∀ i, i < X.length → dropPrefix? relTag ((X ++ relTag).drop i) = none)
    (hT : ∀ i, i < ('\n' :: (R ++ Y)).length →
      dropPrefix? relTag (('\n' :: (R ++ Y)).drop i) = none) :
    insertRelease R (insertRelease R (X ++ (relTag ++ Y))) =
      X ++ (relTag ++ '\n' :: (R ++ '\n' :: (R ++ Y))) := by
  have hrt : relTag ≠ [] := by decide
  have hXz : ∀ (Z : List Char) (i), i < X.length →
      dropPrefix? relTag ((X ++ (relTag ++ Z)).drop i) = none := by
    intro Z i hi
    rw [← List.append_assoc,
      List.drop_append_of_le_length (by rw [List.length_append]; omega)]
    refine dropPrefix?_none_append Z (hX i hi) ?_
    rw [List.length_drop, List.length_append]
    have : relTag.length = 10 := by decide
    omega
  have hY : ∀ j, j < Y.length → dropPrefix? relTag (Y.drop j) = none := by
    intro j hj
    have h1 := hT (R.length + j + 1) (by
      simp only [List.length_cons, List.length_append]
      omega)
    rw [List.drop_succ_cons, List.drop_append j] at h1
    exact h1
  have step1 : insertRelease R (X ++ (relTag ++ Y)) =
      X ++ (relTag ++ '\n' :: (R ++ Y)) := by
    unfold insertRelease
    rw [if_pos (hasSub_of_decomp relTag hrt X Y)]
    rw [replaceAllRun_skip relTag _ X (relTag ++ Y) (hXz Y)]
    rw [replaceAllRun_here relTag _ Y hrt]
    rw [replaceAllRun_nowhere relTag _ Y hY]
    simp
  rw [step1]
  unfold insertRelease
  rw [if_pos (hasSub_of_decomp relTag hrt X ('\n' :: (R ++ Y)))]
  rw [replaceAllRun_skip relTag _ X (relTag ++ '\n' :: (R ++ Y))
    (hXz ('\n' :: (R ++ Y)))]
  rw [replaceAllRun_here relTag _ ('\n' :: (R ++ Y)) hrt]
  rw [replaceAllRun_nowhere relTag _ ('\n' :: (R ++ Y)) hT]
  simp

/-- Witness for C7 on a concrete metainfo document and release element. -/
theorem insertRelease_twice_witness :
    insertRelease "    <release version=\"0.4.0\" date=\"2026-01-02\"></release>".data
        (insertRelease
          "    <release version=\"0.4.0\" date=\"2026-01-02\"></release>".data
          ("<component>\n  ".data ++
            (relTag ++ "\n  </releases>\n</component>".data))) =
      "<component>\n  ".data ++
        (relTag ++ '\n' ::
          ("    <release version=\"0.4.0\" date=\"2026-01-02\"></release>".data ++
            '\n' ::
              ("    <release version=\"0.4.0\" date=\"2026-01-02\"></release>".data ++
                "\n  </releases>\n</component>".data))) :=
  insertRelease_twice "<component>\n  ".data "\n  </releases>\n</component>".data
    "    <release version=\"0.4.0\" date=\"2026-01-02\"></release>".data
    (by decide) (by decide)

/-- Claim C1: for version triples with `minor ≤ 99` and `patch ≤ 99` the build
code equals `M*10000 + m*100 + p`, and the encoding is injective on that
domain: distinct triples give distinct codes. -/
theorem buildCode_formula_and_injective
    (M m p M' m' p' : Nat)
    (hm : m ≤ 99) (hp : p ≤ 99) (hm' : m' ≤ 99) (hp' : p' ≤ 99)
    (heq : buildCode M m p = buildCode M' m' p') :
    buildCode M m p = M * 10000 + m * 100 + p ∧ M = M' ∧ m = m' ∧ p = p' := by
  refine ⟨rfl, ?_⟩
  unfold buildCode at heq
  omega

/-- Witness for C1 at the concrete triples (0,3,2) and (0,3,2). -/
theorem buildCode_formula_and_injective_witness :
    buildCode 0 3 2 = 0 * 10000 + 3 * 100 + 2 ∧ 0 = 0 ∧ 3 = 3 ∧ 2 = 2 :=
  buildCode_formula_and_injective 0 3 2 0 3 2 (by decide) (by decide)
    (by decide) (by decide) (by decide)

end Cfait
